import Mathlib

/-!
Verification of the pixel-packing core of `terrain_3d_prepare` (`src/main.rs`).

The development shallowly embeds the program: images are dimension-tagged
pixel-lookup functions, 8-bit machine integers are natural numbers that the
source keeps below 256, the `f32` arithmetic of the ambient-occlusion multiply
is emulated exactly by integer round-to-nearest-even at 24 significand bits,
and reads that panic in Rust (`get_pixel` out of bounds) become `Option`.
-/

/-- A decoded RGBA pixel. The program stores each channel in a `u8`,
so in well-formed images every channel is below 256. -/
structure Rgba where
  r : ℕ
  g : ℕ
  b : ℕ
  a : ℕ
  deriving DecidableEq

/-- A decoded image: dimensions plus a total pixel-lookup function.
The Rust buffer is row-major: flat pixel `i` sits at `(i % width, i / width)`. -/
structure Img where
  width : ℕ
  height : ℕ
  pix : ℕ → ℕ → Rgba

/-- All channels of every in-range pixel fit in a `u8`. -/
def Img.Wf (img : Img) : Prop :=
  ∀ x y, x < img.width → y < img.height →
    (img.pix x y).r < 256 ∧ (img.pix x y).g < 256 ∧
    (img.pix x y).b < 256 ∧ (img.pix x y).a < 256

/-- enum NormalMapFormat (src/main.rs:13). -/
inductive NormalMapFormat where
  | OpenGL
  | DirectX
  deriving DecidableEq

/-- enum OutputFormat (src/main.rs:25). -/
inductive OutputFormat where
  | PNG
  | DDS
  deriving DecidableEq

/-- enum RoughnessFormat (src/main.rs:38). -/
inductive RoughnessFormat where
  | Roughness
  | Smoothness
  deriving DecidableEq

/-- enum ImageLoadState (src/main.rs:50). -/
inductive ImageLoadState where
  | NotLoaded
  | Loading
  | Loaded
  | Error (msg : String)
  deriving DecidableEq

/-- enum ProcessingState (src/main.rs:81). -/
inductive ProcessingState where
  | NotStarted
  | Processing
  | Done
  | Error (msg : String)
  deriving DecidableEq

/-- enum ImageValidationError (src/main.rs:64). -/
inductive ImageValidationError where
  | NotSquare
  | NotPowerOfTwo
  | TooSmall
  deriving DecidableEq

/-- Display impl for ImageValidationError (src/main.rs:70). -/
def ImageValidationError.message : ImageValidationError → String
  | .NotSquare => "Image must be square"
  | .NotPowerOfTwo => "Image dimensions must be power of 2"
  | .TooSmall => "Image must be at least 512x512"

/-- Rust `u32::is_power_of_two`: exactly one bit set. A `u32` is below `2^32`,
so testing the 32 candidate powers decides it. -/
def is_power_of_two (n : ℕ) : Bool :=
  (List.range 32).any fun k => n == 2 ^ k

/-- Function `TerrainApp::validate_image` (src/main.rs:164): square, then power of two,
then at least 512, returning the first violated rule. -/
def validate_image (width height : ℕ) : Except ImageValidationError Unit :=
  if width ≠ height then .error .NotSquare
  else if !is_power_of_two width then .error .NotPowerOfTwo
  else if width < 512 then .error .TooSmall
  else .ok ()

/-- The run-gating fields of `TerrainApp` (src/main.rs:88); the remaining
fields of the struct (paths, previews, channels) play no part in gating. -/
structure TerrainApp where
  albedo_load_state : ImageLoadState
  normal_load_state : ImageLoadState
  output_directory : Option String
  processing_state : ProcessingState

/-- Function `TerrainApp::are_required_images_loaded` (src/main.rs:223): both required
slots Loaded and an output directory chosen. -/
def are_required_images_loaded (s : TerrainApp) : Bool :=
  (match s.albedo_load_state, s.normal_load_state with
    | .Loaded, .Loaded => true
    | _, _ => false) && s.output_directory.isSome

/-- The test `matches!(self.processing_state, ProcessingState::Processing)`. -/
def is_processing : ProcessingState → Bool
  | .Processing => true
  | _ => false

/-- Enabling condition of the Run button (src/main.rs:668). -/
def run_enabled (s : TerrainApp) : Bool :=
  are_required_images_loaded s && !is_processing s.processing_state

/-- File extension chosen by the output format (src/main.rs:335). -/
def format_extension : OutputFormat → String
  | .PNG => "png"
  | .DDS => "dds"

/-- Control flow of the save phase (src/main.rs:334): two sequential fallible
file writes into the output directory, the packed albedo first, then the
packed normal; the `?` operator aborts after the first failure and nothing
ever removes an already written file. The parameters give the outcome the
file system would return for each write; the result lists the file names
attempted in order, together with the value the closure returns. -/
def save_outputs (fmt : OutputFormat) (w1 w2 : Except String Unit) :
    List String × Except String Unit :=
  match w1 with
  | .error e => (["albedo." ++ format_extension fmt], .error e)
  | .ok () =>
    match w2 with
    | .error e =>
        (["albedo." ++ format_extension fmt, "normal." ++ format_extension fmt],
          .error e)
    | .ok () =>
        (["albedo." ++ format_extension fmt, "normal." ++ format_extension fmt],
          .ok ())

/-- Round the fraction `n / d` to the nearest integer, ties to even
(the IEEE 754 default rounding used by Rust `f32` arithmetic). -/
def rne (n d : ℕ) : ℕ :=
  let q := n / d
  let r := n % d
  if 2 * r < d then q
  else if d < 2 * r then q + 1
  else if q % 2 = 0 then q else q + 1

/-- Fuel-driven bit length: `bitsAux fuel n` is the number of binary digits
of `n` once `fuel` covers them. -/
def bitsAux : ℕ → ℕ → ℕ
  | 0, _ => 0
  | fuel + 1, n => if n = 0 then 0 else bitsAux fuel (n / 2) + 1

/-- Bit length of a natural number; 64 bits of fuel covers every quantity
the pipeline produces. -/
def bits (n : ℕ) : ℕ := bitsAux 64 n

/-- Decide `2 ^ e ≤ n / d` without leaving the naturals. -/
def pow2Le (e : ℤ) (n d : ℕ) : Bool :=
  match e with
  | .ofNat k => d * 2 ^ k ≤ n
  | .negSucc k => d ≤ n * 2 ^ (k + 1)

/-- Binade of the positive fraction `n / d`: the exponent `e` with
`2 ^ e ≤ n / d < 2 ^ (e + 1)`, located from the bit lengths. -/
def froundExp (n d : ℕ) : ℤ :=
  let e0 : ℤ := (bits n : ℤ) - (bits d : ℤ)
  if pow2Le e0 n d then e0 else e0 - 1

/-- Significand of `n / d` scaled into the binade `s = e - 23`:
the nearest integer (ties to even) to `(n / d) * 2 ^ (-s)`. -/
def froundMant (n d : ℕ) (s : ℤ) : ℕ :=
  match s with
  | .ofNat k => rne n (d * 2 ^ k)
  | .negSucc k => rne (n * 2 ^ (k + 1)) d

/-- Round the fraction `n / d` to IEEE binary32 precision
(24 significand bits, round to nearest, ties to even). The result `(m, s)`
denotes the value `m * 2 ^ s` with `m = 0` or `2^23 ≤ m ≤ 2^24 - 1`; the
quantities in this program never leave the normal range of `f32`. -/
def fround (n d : ℕ) : ℕ × ℤ :=
  if n = 0 then (0, 0) else
  let s : ℤ := froundExp n d - 23
  let m : ℕ := froundMant n d s
  if m = 2 ^ 24 then (2 ^ 23, s + 1) else (m, s)

/-- The value `m * 2 ^ s` as a fraction of naturals. -/
def toFrac : ℕ × ℤ → ℕ × ℕ
  | (m, .ofNat k) => (m * 2 ^ k, 1)
  | (m, .negSucc k) => (m, 2 ^ (k + 1))

/-- One channel of the ambient-occlusion multiply (src/main.rs:279):
`(c as f32 * (a as f32 / 255.0)) as u8`. Channel `c` and luminance `a` are
below 256 and hence exact in `f32`; the division and the multiplication each
round once; the cast truncates toward zero and saturates at 255. -/
def aoMultiply (c a : ℕ) : ℕ :=
  let v := toFrac (fround a 255)
  let p := toFrac (fround (c * v.1) v.2)
  min (p.1 / p.2) 255

/-- Function `to_luma8` of the external image crate: integer BT.709 luma of the colour
channels. The claims use the luminance only abstractly; a grey pixel has
luminance equal to its common channel value because the weights sum
to 10000. -/
def luma (p : Rgba) : ℕ := (2126 * p.r + 7152 * p.g + 722 * p.b) / 10000

/-- Function `get_pixel` of the external image crate (called at src/main.rs:279, 292
and 320): panics when the coordinate leaves the image; the panic is
modelled by `none`. -/
def getPixel (img : Img) (x y : ℕ) : Option Rgba :=
  if x < img.width ∧ y < img.height then some (img.pix x y) else none

/-- The ambient-occlusion pass body (src/main.rs:274): multiply every colour
channel of the albedo pixel by the AO luminance over 255 in `f32`; the alpha
channel is untouched. With no AO map the pass does not run. -/
def aoStep (ao : Option Img) (x y : ℕ) (p : Rgba) : Option Rgba :=
  match ao with
  | none => some p
  | some aoImg =>
    (getPixel aoImg x y).map fun ap =>
      { r := aoMultiply p.r (luma ap), g := aoMultiply p.g (luma ap),
        b := aoMultiply p.b (luma ap), a := p.a }

/-- The height pass body (src/main.rs:287): overwrite alpha with the height
luminance, or with the fully opaque 255 when no height map is loaded. -/
def heightStep (hgt : Option Img) (x y : ℕ) (p : Rgba) : Option Rgba :=
  match hgt with
  | none => some { p with a := 255 }
  | some hImg => (getPixel hImg x y).map fun hp => { p with a := luma hp }

/-- The albedo pipeline at flat buffer index `i` (src/main.rs:266):
`x = i % width` and `y = i / width` exactly as the parallel loops compute
them from the width of the albedo buffer itself. -/
def albedoPixelAt (albedo : Img) (ao hgt : Option Img) (i : ℕ) : Option Rgba :=
  let x := i % albedo.width
  let y := i / albedo.width
  (aoStep ao x y (albedo.pix x y)).bind (heightStep hgt x y)

/-- The packed-albedo output of `process_and_save_images`: defined exactly
when no per-pixel read of a contributor buffer panics. -/
def compositeAlbedo (albedo : Img) (ao hgt : Option Img) : Option Img :=
  if _ : ∀ i < albedo.width * albedo.height,
      (albedoPixelAt albedo ao hgt i).isSome = true then
    some { width := albedo.width, height := albedo.height,
           pix := fun x y =>
             (albedoPixelAt albedo ao hgt (y * albedo.width + x)).getD
               ⟨0, 0, 0, 0⟩ }
  else none

/-- The green-channel convention pass (src/main.rs:308): DirectX inverts the
green channel, OpenGL performs no transform. -/
def normalEncode (nf : NormalMapFormat) (p : Rgba) : Rgba :=
  match nf with
  | .DirectX => { p with g := 255 - p.g }
  | .OpenGL => p

/-- The roughness pass body (src/main.rs:315): alpha takes the raw roughness
luminance under the Roughness setting, `255 - luminance` under Smoothness,
and the fixed neutral 128 when no roughness map is loaded. -/
def roughnessStep (rough : Option Img) (rf : RoughnessFormat) (x y : ℕ)
    (p : Rgba) : Option Rgba :=
  match rough with
  | none => some { p with a := 128 }
  | some rImg =>
    (getPixel rImg x y).map fun rp =>
      { p with a := match rf with
          | .Roughness => luma rp
          | .Smoothness => 255 - luma rp }

/-- The normal pipeline at flat buffer index `i` (src/main.rs:301). -/
def normalPixelAt (normal : Img) (rough : Option Img) (nf : NormalMapFormat)
    (rf : RoughnessFormat) (i : ℕ) : Option Rgba :=
  let x := i % normal.width
  let y := i / normal.width
  roughnessStep rough rf x y (normalEncode nf (normal.pix x y))

/-- The packed-normal output of `process_and_save_images`: defined exactly
when no per-pixel read of the roughness buffer panics. -/
def compositeNormal (normal : Img) (rough : Option Img) (nf : NormalMapFormat)
    (rf : RoughnessFormat) : Option Img :=
  if _ : ∀ i < normal.width * normal.height,
      (normalPixelAt normal rough nf rf i).isSome = true then
    some { width := normal.width, height := normal.height,
           pix := fun x y =>
             (normalPixelAt normal rough nf rf (y * normal.width + x)).getD
               ⟨0, 0, 0, 0⟩ }
  else none

/-- Concrete 1 × 1 inputs for the witness runs. -/
def wNormal : Img := ⟨1, 1, fun _ _ => ⟨10, 20, 30, 40⟩⟩

def wRough : Img := ⟨1, 1, fun _ _ => ⟨90, 90, 90, 255⟩⟩

def wAlbedo : Img := ⟨1, 1, fun _ _ => ⟨200, 100, 50, 13⟩⟩

def wAo : Img := ⟨1, 1, fun _ _ => ⟨128, 128, 128, 255⟩⟩

def wHeight : Img := ⟨1, 1, fun _ _ => ⟨77, 77, 77, 255⟩⟩

/-- Packed-normal output of the witness run, Roughness encoding. -/
def wNormalOutR : Img :=
  { width := 1, height := 1,
    pix := fun x y =>
      (normalPixelAt wNormal (some wRough) .OpenGL .Roughness (y * 1 + x)).getD
        ⟨0, 0, 0, 0⟩ }

/-- Packed-normal output of the witness run, Smoothness encoding. -/
def wNormalOutS : Img :=
  { width := 1, height := 1,
    pix := fun x y =>
      (normalPixelAt wNormal (some wRough) .DirectX .Smoothness (y * 1 + x)).getD
        ⟨0, 0, 0, 0⟩ }

/-- Packed-normal output of the witness run with no roughness input. -/
def wNormalOutN : Img :=
  { width := 1, height := 1,
    pix := fun x y =>
      (normalPixelAt wNormal none .OpenGL .Roughness (y * 1 + x)).getD
        ⟨0, 0, 0, 0⟩ }

/-- Packed-albedo output of the witness run with a height input. -/
def wAlbedoOutH : Img :=
  { width := 1, height := 1,
    pix := fun x y =>
      (albedoPixelAt wAlbedo none (some wHeight) (y * 1 + x)).getD ⟨0, 0, 0, 0⟩ }

/-- Packed-albedo output of the witness run with no optional input. -/
def wAlbedoOutN : Img :=
  { width := 1, height := 1,
    pix := fun x y =>
      (albedoPixelAt wAlbedo none none (y * 1 + x)).getD ⟨0, 0, 0, 0⟩ }

/-- Packed-albedo output of the witness run with an AO input. -/
def wAlbedoOutAO : Img :=
  { width := 1, height := 1,
    pix := fun x y =>
      (albedoPixelAt wAlbedo (some wAo) none (y * 1 + x)).getD ⟨0, 0, 0, 0⟩ }

/-- A uniform white AO input: luminance 255 everywhere. -/
def wAoFull : Img := ⟨1, 1, fun _ _ => ⟨255, 255, 255, 255⟩⟩

/-- struct ProcessedImage (src/main.rs:58): the untouched full-resolution
original next to the display-only 512 × 512 copy. -/
structure ProcessedImage where
  original : Img
  downscaled : Img

/-- Nearest-neighbour resampling to a target size, modelling the external
image crate call `resize_exact(512, 512, FilterType::Nearest)`
(src/main.rs:185): every target pixel samples exactly one source pixel. -/
def resizeNearest (img : Img) (nw nh : ℕ) : Img :=
  { width := nw, height := nh,
    pix := fun x y => img.pix (x * img.width / nw) (y * img.height / nh) }

/-- Function `TerrainApp::process_image` (src/main.rs:182): validate, then pair the
original with its 512 × 512 nearest-neighbour preview. -/
def process_image (img : Img) : Except String ProcessedImage :=
  match validate_image img.width img.height with
  | .error e => .error e.message
  | .ok _ => .ok ⟨img, resizeNearest img 512 512⟩

/-- A validated 2048 × 2048 input for the C9 witness. -/
def wBig : Img := ⟨2048, 2048, fun _ _ => ⟨1, 2, 3, 4⟩⟩

theorem is_power_of_two_iff {n : ℕ} (hn : n < 2 ^ 32) :
    is_power_of_two n = true ↔ ∃ k, n = 2 ^ k := by
  unfold is_power_of_two
  rw [List.any_eq_true]
  constructor
  · rintro ⟨k, _, hk⟩
    exact ⟨k, by simpa using hk⟩
  · rintro ⟨k, rfl⟩
    refine ⟨k, List.mem_range.mpr ?_, by simp⟩
    by_contra hlt
    push_neg at hlt
    exact absurd hn (not_lt.mpr (Nat.pow_le_pow_right (by norm_num) hlt))

/-- C3: `validate_image` succeeds exactly on square power-of-two images of
width at least 512, and on a violation returns the first failed rule in the
fixed order NotSquare, NotPowerOfTwo, TooSmall. As a Lean function it is
pure by construction. -/
theorem validate_image_spec (w h : ℕ) (hw : w < 2 ^ 32) :
    (validate_image w h = .ok () ↔ w = h ∧ (∃ k, w = 2 ^ k) ∧ 512 ≤ w) ∧
    (w ≠ h → validate_image w h = .error .NotSquare) ∧
    (w = h → ¬(∃ k, w = 2 ^ k) → validate_image w h = .error .NotPowerOfTwo) ∧
    (w = h → (∃ k, w = 2 ^ k) → w < 512 →
      validate_image w h = .error .TooSmall) := by
  have hpow := is_power_of_two_iff hw
  refine ⟨?_, ?_, ?_, ?_⟩
  · constructor
    · intro hok
      by_cases hwh : w = h
      · subst hwh
        by_cases hp : is_power_of_two w = true
        · by_cases hs : w < 512
          · exfalso
            simp [validate_image, hp, hs] at hok
          · exact ⟨rfl, hpow.mp hp, not_lt.mp hs⟩
        · exfalso
          have hfalse : is_power_of_two w = false := Bool.eq_false_iff.mpr hp
          simp [validate_image, hfalse] at hok
      · exfalso
        simp [validate_image, hwh] at hok
    · rintro ⟨rfl, hk, hge⟩
      simp [validate_image, hpow.mpr hk, not_lt.mpr hge]
  · intro hne
    simp [validate_image, hne]
  · intro heq hnp
    subst heq
    have hfalse : is_power_of_two w = false :=
      Bool.eq_false_iff.mpr (fun hc => hnp (hpow.mp hc))
    simp [validate_image, hfalse]
  · intro heq hk hs
    subst heq
    simp [validate_image, hpow.mpr hk, hs]

/-- Witness for C3 at a concrete image: 1024 × 1024 validates. -/
theorem validate_image_spec_witness :
    validate_image 1024 1024 = .ok () ∧
    validate_image 1024 512 = .error .NotSquare :=
  ⟨(validate_image_spec 1024 1024 (by norm_num)).1.mpr
      ⟨rfl, ⟨10, by norm_num⟩, by norm_num⟩,
    (validate_image_spec 1024 512 (by norm_num)).2.1 (by norm_num)⟩

/-- C7: the run operation is enabled exactly when the Albedo slot is Loaded,
the Normal slot is Loaded, an output directory is set, and the processing
state is not Processing. -/
theorem run_enabled_iff (s : TerrainApp) :
    run_enabled s = true ↔
      s.albedo_load_state = .Loaded ∧ s.normal_load_state = .Loaded ∧
      s.output_directory.isSome = true ∧ s.processing_state ≠ .Processing := by
  unfold run_enabled are_required_images_loaded
  cases ha : s.albedo_load_state <;> cases hn : s.normal_load_state <;>
    cases hp : s.processing_state <;>
      simp [is_processing, ha, hn, hp]

/-- C8: every run attempts the packed-albedo file first and the packed-normal
file second, with extensions following the selected format; a failure of the
first write aborts the run with that error before the second file is
attempted, and a failure of the second write leaves the first file written
(the attempt list keeps its name and no removal exists in the model). -/
theorem save_outputs_spec (fmt : OutputFormat) (w1 w2 : Except String Unit) :
    (w1 = .ok () →
      (save_outputs fmt w1 w2).1 =
        ["albedo." ++ format_extension fmt, "normal." ++ format_extension fmt]) ∧
    (∀ e, w1 = .error e →
      save_outputs fmt w1 w2 = (["albedo." ++ format_extension fmt], .error e)) ∧
    (∀ e, w1 = .ok () → w2 = .error e →
      save_outputs fmt w1 w2 =
        (["albedo." ++ format_extension fmt, "normal." ++ format_extension fmt],
          .error e)) ∧
    (w1 = .ok () → w2 = .ok () →
      (save_outputs fmt w1 w2).2 = .ok ()) := by
  refine ⟨?_, ?_, ?_, ?_⟩
  · rintro rfl
    cases w2 <;> rfl
  · rintro e rfl
    rfl
  · rintro e rfl rfl
    rfl
  · rintro rfl rfl
    rfl

/-- Witness for C8 at concrete outcomes: a PNG run whose second write fails
keeps the albedo file in the attempted list and reports the error. -/
theorem save_outputs_spec_witness :
    save_outputs .PNG (.ok ()) (.error "disk full") =
      (["albedo.png", "normal.png"], .error "disk full") ∧
    save_outputs .DDS (.error "denied") (.ok ()) =
      (["albedo.dds"], .error "denied") :=
  ⟨(save_outputs_spec .PNG (.ok ()) (.error "disk full")).2.2.1 "disk full" rfl rfl,
    (save_outputs_spec .DDS (.error "denied") (.ok ())).2.1 "denied" rfl⟩

theorem index_mod {x y w : ℕ} (hx : x < w) : (y * w + x) % w = x := by
  rw [Nat.add_comm, Nat.add_mul_mod_self_right, Nat.mod_eq_of_lt hx]

theorem index_div {x y w : ℕ} (hx : x < w) : (y * w + x) / w = y := by
  rw [Nat.add_comm, Nat.add_mul_div_right _ _ (Nat.pos_of_ne_zero (by omega)),
    Nat.div_eq_of_lt hx, Nat.zero_add]

theorem getPixel_eq_some {img : Img} {x y : ℕ} {p : Rgba}
    (h : getPixel img x y = some p) :
    x < img.width ∧ y < img.height ∧ p = img.pix x y := by
  unfold getPixel at h
  split at h
  next hb => exact ⟨hb.1, hb.2, (Option.some.inj h).symm⟩
  next => cases h

/-- Unpacking a successful packed-albedo run: the output follows the albedo
dimensions and every in-range output pixel is the per-index pipeline value. -/
theorem compositeAlbedo_pix {albedo : Img} {ao hgt : Option Img} {out : Img}
    (h : compositeAlbedo albedo ao hgt = some out) :
    out.width = albedo.width ∧ out.height = albedo.height ∧
    ∀ x y, x < albedo.width → y < albedo.height →
      albedoPixelAt albedo ao hgt (y * albedo.width + x) =
        some (out.pix x y) := by
  unfold compositeAlbedo at h
  split at h
  next hall =>
    obtain rfl := Option.some.inj h
    refine ⟨rfl, rfl, ?_⟩
    intro x y hx hy
    have hi : y * albedo.width + x < albedo.width * albedo.height := by
      have h1 : y * albedo.width + x < (y + 1) * albedo.width := by
        rw [Nat.succ_mul]
        omega
      have h2 : (y + 1) * albedo.width ≤ albedo.height * albedo.width :=
        Nat.mul_le_mul_right _ (by omega)
      rw [Nat.mul_comm albedo.width albedo.height]
      omega
    obtain ⟨v, hv⟩ := Option.isSome_iff_exists.mp (hall _ hi)
    simp only [hv, Option.getD_some]
  next => cases h

/-- Unpacking a successful packed-normal run. -/
theorem compositeNormal_pix {normal : Img} {rough : Option Img}
    {nf : NormalMapFormat} {rf : RoughnessFormat} {out : Img}
    (h : compositeNormal normal rough nf rf = some out) :
    out.width = normal.width ∧ out.height = normal.height ∧
    ∀ x y, x < normal.width → y < normal.height →
      normalPixelAt normal rough nf rf (y * normal.width + x) =
        some (out.pix x y) := by
  unfold compositeNormal at h
  split at h
  next hall =>
    obtain rfl := Option.some.inj h
    refine ⟨rfl, rfl, ?_⟩
    intro x y hx hy
    have hi : y * normal.width + x < normal.width * normal.height := by
      have h1 : y * normal.width + x < (y + 1) * normal.width := by
        rw [Nat.succ_mul]
        omega
      have h2 : (y + 1) * normal.width ≤ normal.height * normal.width :=
        Nat.mul_le_mul_right _ (by omega)
      rw [Nat.mul_comm normal.width normal.height]
      omega
    obtain ⟨v, hv⟩ := Option.isSome_iff_exists.mp (hall _ hi)
    simp only [hv, Option.getD_some]
  next => cases h

/-- What a successful normal-pipeline pixel looks like. -/
theorem normalPixelAt_some {normal : Img} {rough : Option Img}
    {nf : NormalMapFormat} {rf : RoughnessFormat} {x y : ℕ} {q : Rgba}
    (hx : x < normal.width)
    (h : normalPixelAt normal rough nf rf (y * normal.width + x) = some q) :
    (rough = none → q = { normalEncode nf (normal.pix x y) with a := 128 }) ∧
    (∀ rImg, rough = some rImg →
      x < rImg.width ∧ y < rImg.height ∧
      q = { normalEncode nf (normal.pix x y) with
            a := match rf with
              | .Roughness => luma (rImg.pix x y)
              | .Smoothness => 255 - luma (rImg.pix x y) }) := by
  simp only [normalPixelAt] at h
  rw [index_mod hx, index_div hx] at h
  constructor
  · rintro rfl
    simp only [roughnessStep] at h
    exact (Option.some.inj h).symm
  · rintro rImg rfl
    simp only [roughnessStep] at h
    cases hg : getPixel rImg x y with
    | none =>
      rw [hg] at h
      simp at h
    | some rp =>
      rw [hg] at h
      obtain ⟨hxr, hyr, hp⟩ := getPixel_eq_some hg
      subst hp
      refine ⟨hxr, hyr, ?_⟩
      cases rf <;> exact (Option.some.inj h).symm

/-- What a successful AO pass looks like. -/
theorem aoStep_some {aoImg : Img} {x y : ℕ} {p q : Rgba}
    (h : aoStep (some aoImg) x y p = some q) :
    x < aoImg.width ∧ y < aoImg.height ∧
    q = { r := aoMultiply p.r (luma (aoImg.pix x y)),
          g := aoMultiply p.g (luma (aoImg.pix x y)),
          b := aoMultiply p.b (luma (aoImg.pix x y)), a := p.a } := by
  simp only [aoStep] at h
  cases hg : getPixel aoImg x y with
  | none =>
    rw [hg] at h
    simp at h
  | some ap =>
    rw [hg] at h
    obtain ⟨hxr, hyr, hp⟩ := getPixel_eq_some hg
    subst hp
    exact ⟨hxr, hyr, (Option.some.inj h).symm⟩

/-- What a successful height pass looks like. -/
theorem heightStep_some {hgt : Option Img} {x y : ℕ} {p q : Rgba}
    (h : heightStep hgt x y p = some q) :
    (hgt = none → q = { p with a := 255 }) ∧
    (∀ hImg, hgt = some hImg →
      x < hImg.width ∧ y < hImg.height ∧
      q = { p with a := luma (hImg.pix x y) }) := by
  constructor
  · rintro rfl
    simp only [heightStep] at h
    exact (Option.some.inj h).symm
  · rintro hImg rfl
    simp only [heightStep] at h
    cases hg : getPixel hImg x y with
    | none =>
      rw [hg] at h
      simp at h
    | some hp =>
      rw [hg] at h
      obtain ⟨hxr, hyr, hpe⟩ := getPixel_eq_some hg
      subst hpe
      exact ⟨hxr, hyr, (Option.some.inj h).symm⟩

/-- A successful albedo-pipeline pixel splits into its two passes. -/
theorem albedoPixelAt_some {albedo : Img} {ao hgt : Option Img} {x y : ℕ}
    {q : Rgba} (hx : x < albedo.width)
    (h : albedoPixelAt albedo ao hgt (y * albedo.width + x) = some q) :
    ∃ p1, aoStep ao x y (albedo.pix x y) = some p1 ∧
      heightStep hgt x y p1 = some q := by
  simp only [albedoPixelAt] at h
  rw [index_mod hx, index_div hx] at h
  cases ha : aoStep ao x y (albedo.pix x y) with
  | none =>
    rw [ha] at h
    simp at h
  | some p1 =>
    rw [ha] at h
    exact ⟨p1, rfl, h⟩

/-- C1: whenever the normal pipeline produces its packed output, every
in-range pixel has an alpha channel equal to the roughness luminance under
the Roughness encoding, `255 - luminance` under Smoothness, and the fixed
neutral 128 when no roughness input is present. -/
theorem normal_roughness_alpha (normal : Img) (rough : Option Img)
    (nf : NormalMapFormat) (rf : RoughnessFormat) (out : Img)
    (h : compositeNormal normal rough nf rf = some out) :
    ∀ x y, x < normal.width → y < normal.height →
      (out.pix x y).a =
        match rough, rf with
        | some rImg, .Roughness => luma (rImg.pix x y)
        | some rImg, .Smoothness => 255 - luma (rImg.pix x y)
        | none, _ => 128 := by
  intro x y hx hy
  obtain ⟨-, -, hpix⟩ := compositeNormal_pix h
  obtain ⟨hnone, hsome⟩ := normalPixelAt_some hx (hpix x y hx hy)
  cases rough with
  | none =>
    rw [hnone rfl]
  | some rImg =>
    obtain ⟨-, -, hqe⟩ := hsome rImg rfl
    cases rf <;> simp [hqe]

/-- C2: whenever the compositor produces the packed-albedo buffer, every
in-range pixel has alpha equal to the height luminance at that pixel when a
height input is present and 255 when none is; the defining formula never
reads the alpha of the albedo source itself. -/
theorem albedo_alpha_spec (albedo : Img) (ao hgt : Option Img) (out : Img)
    (h : compositeAlbedo albedo ao hgt = some out) :
    ∀ x y, x < albedo.width → y < albedo.height →
      (out.pix x y).a =
        match hgt with
        | some hImg => luma (hImg.pix x y)
        | none => 255 := by
  intro x y hx hy
  obtain ⟨-, -, hpix⟩ := compositeAlbedo_pix h
  obtain ⟨p1, hao, hht⟩ := albedoPixelAt_some hx (hpix x y hx hy)
  obtain ⟨hnone, hsome⟩ := heightStep_some hht
  cases hgt with
  | none =>
    rw [hnone rfl]
  | some hImg =>
    obtain ⟨-, -, hqe⟩ := hsome hImg rfl
    simp [hqe]

/-- C5: the DirectX encoding replaces only the green channel of every pixel
with its complement, and the OpenGL encoding leaves every colour channel
exactly the source value; the roughness pass touches no colour channel. -/
theorem normal_green_spec (normal : Img) (rough : Option Img)
    (nf : NormalMapFormat) (rf : RoughnessFormat) (out : Img)
    (h : compositeNormal normal rough nf rf = some out) :
    ∀ x y, x < normal.width → y < normal.height →
      ((nf = .DirectX →
          (out.pix x y).g = 255 - (normal.pix x y).g ∧
          (out.pix x y).r = (normal.pix x y).r ∧
          (out.pix x y).b = (normal.pix x y).b) ∧
        (nf = .OpenGL →
          (out.pix x y).r = (normal.pix x y).r ∧
          (out.pix x y).g = (normal.pix x y).g ∧
          (out.pix x y).b = (normal.pix x y).b)) := by
  intro x y hx hy
  obtain ⟨-, -, hpix⟩ := compositeNormal_pix h
  obtain ⟨hnone, hsome⟩ := normalPixelAt_some hx (hpix x y hx hy)
  cases rough with
  | none =>
    have hq := hnone rfl
    constructor
    · rintro rfl
      simp [hq, normalEncode]
    · rintro rfl
      simp [hq, normalEncode]
  | some rImg =>
    obtain ⟨-, -, hq⟩ := hsome rImg rfl
    constructor
    · rintro rfl
      cases rf <;> simp [hq, normalEncode]
    · rintro rfl
      cases rf <;> simp [hq, normalEncode]

theorem wNormalOutR_run :
    compositeNormal wNormal (some wRough) .OpenGL .Roughness =
      some wNormalOutR := rfl

theorem wNormalOutS_run :
    compositeNormal wNormal (some wRough) .DirectX .Smoothness =
      some wNormalOutS := rfl

theorem wNormalOutN_run :
    compositeNormal wNormal none .OpenGL .Roughness = some wNormalOutN := rfl

/-- Witness for C1: luminance 90 gives alpha 90 under Roughness encoding,
165 under Smoothness, and 128 with no roughness input. -/
theorem normal_roughness_alpha_witness :
    (wNormalOutR.pix 0 0).a = 90 ∧ (wNormalOutS.pix 0 0).a = 165 ∧
    (wNormalOutN.pix 0 0).a = 128 :=
  ⟨normal_roughness_alpha wNormal (some wRough) .OpenGL .Roughness wNormalOutR
      wNormalOutR_run 0 0 (by decide) (by decide),
    normal_roughness_alpha wNormal (some wRough) .DirectX .Smoothness wNormalOutS
      wNormalOutS_run 0 0 (by decide) (by decide),
    normal_roughness_alpha wNormal none .OpenGL .Roughness wNormalOutN
      wNormalOutN_run 0 0 (by decide) (by decide)⟩

/-- Witness for C5: DirectX flips green 20 to 235 keeping red and blue,
OpenGL keeps all three channels. -/
theorem normal_green_spec_witness :
    ((wNormalOutS.pix 0 0).g = 235 ∧ (wNormalOutS.pix 0 0).r = 10 ∧
      (wNormalOutS.pix 0 0).b = 30) ∧
    ((wNormalOutR.pix 0 0).r = 10 ∧ (wNormalOutR.pix 0 0).g = 20 ∧
      (wNormalOutR.pix 0 0).b = 30) :=
  ⟨(normal_green_spec wNormal (some wRough) .DirectX .Smoothness wNormalOutS
      wNormalOutS_run 0 0 (by decide) (by decide)).1 rfl,
    (normal_green_spec wNormal (some wRough) .OpenGL .Roughness wNormalOutR
      wNormalOutR_run 0 0 (by decide) (by decide)).2 rfl⟩

theorem rne_le (n d : ℕ) : 2 * d * rne n d ≤ 2 * n + d := by
  have h0 := Nat.div_add_mod n d
  simp only [rne]
  have e0 : 2 * (d * (n / d) + n % d) = 2 * n := by rw [h0]
  have e1 : 2 * (d * (n / d)) + 2 * (n % d) = 2 * n := by
    rw [← e0]
    ring
  split
  next h =>
    have e2 : 2 * d * (n / d) = 2 * (d * (n / d)) := by ring
    rw [e2]
    generalize d * (n / d) = A at e1 ⊢
    generalize n % d = r at e1 h
    omega
  next h =>
    split
    next h2 =>
      have e2 : 2 * d * (n / d + 1) = 2 * (d * (n / d)) + 2 * d := by ring
      rw [e2]
      generalize d * (n / d) = A at e1 ⊢
      generalize n % d = r at e1 h2
      omega
    next h2 =>
      split
      next =>
        have e2 : 2 * d * (n / d) = 2 * (d * (n / d)) := by ring
        rw [e2]
        generalize d * (n / d) = A at e1 ⊢
        omega
      next =>
        have e2 : 2 * d * (n / d + 1) = 2 * (d * (n / d)) + 2 * d := by ring
        rw [e2]
        generalize d * (n / d) = A at e1 ⊢
        generalize n % d = r at e1 h h2
        omega

theorem bitsAux_lt {fuel n : ℕ} (h : n < 2 ^ fuel) :
    n < 2 ^ bitsAux fuel n := by
  induction fuel generalizing n with
  | zero =>
    simp only [bitsAux, pow_zero] at h ⊢
    omega
  | succ fuel ih =>
    unfold bitsAux
    split
    next hz => simp [hz]
    next hz =>
      have hdiv : n / 2 < 2 ^ fuel := by
        rw [pow_succ] at h
        omega
      have hrec := ih hdiv
      rw [pow_succ]
      omega

theorem bitsAux_le {fuel n t : ℕ} (h : n < 2 ^ t) : bitsAux fuel n ≤ t := by
  induction fuel generalizing n t with
  | zero => simp [bitsAux]
  | succ fuel ih =>
    unfold bitsAux
    split
    next => simp
    next hz =>
      have ht : t ≠ 0 := by
        rintro rfl
        simp at h
        omega
      obtain ⟨t1, rfl⟩ := Nat.exists_eq_succ_of_ne_zero ht
      have hdiv : n / 2 < 2 ^ t1 := by
        rw [pow_succ] at h
        omega
      have hrec := ih hdiv
      omega

theorem fround_eq_of_ne {n d : ℕ} (hn : n ≠ 0) :
    fround n d =
      if froundMant n d (froundExp n d - 23) = 2 ^ 24
        then (2 ^ 23, froundExp n d - 23 + 1)
        else (froundMant n d (froundExp n d - 23), froundExp n d - 23) := by
  unfold fround
  rw [if_neg hn]

theorem fround_trunc_le {c n d : ℕ} (hd : 0 < d) (hd2 : d < 2 ^ 50)
    (hc : c ≤ 255) (hn : n ≤ c * d) :
    (toFrac (fround n d)).1 / (toFrac (fround n d)).2 ≤ c := by
  rcases Nat.eq_zero_or_pos n with rfl | hn0
  · simp [fround, toFrac]
  have hdbits : d < 2 ^ bits d := bitsAux_lt (lt_trans hd2 (by norm_num))
  have hnlt : n < 2 ^ (bits d + 8) := by
    have h1 : n ≤ 255 * d := le_trans hn (Nat.mul_le_mul_right d hc)
    have h2 : 255 * d < 256 * 2 ^ bits d := by nlinarith [hdbits]
    have h3 : 256 * 2 ^ bits d = 2 ^ (bits d + 8) := by
      rw [pow_add]
      ring
    omega
  have hbn : bits n ≤ bits d + 8 := bitsAux_le hnlt
  have he : froundExp n d ≤ 8 := by
    simp only [froundExp]
    split <;> omega
  have hs : froundExp n d - 23 ≤ -15 := by omega
  obtain ⟨k, hk⟩ : ∃ k, froundExp n d - 23 = Int.negSucc k := by
    rcases hsv : froundExp n d - 23 with p | q
    · exfalso
      rw [hsv] at hs
      have hp : (0:ℤ) ≤ Int.ofNat p := Int.ofNat_nonneg p
      omega
    · exact ⟨q, rfl⟩
  have hk14 : 14 ≤ k := by
    rw [hk, Int.negSucc_eq] at hs
    omega
  rw [fround_eq_of_ne (Nat.pos_iff_ne_zero.mp hn0), hk]
  have hm : froundMant n d (Int.negSucc k) = rne (n * 2 ^ (k + 1)) d := rfl
  rw [hm]
  have hb := rne_le (n * 2 ^ (k + 1)) d
  set M := rne (n * 2 ^ (k + 1)) d with hM
  have hple : 2 * M ≤ 4 * (c * 2 ^ k) + 1 := by
    have hmul : d * (2 * M) ≤ d * (4 * (c * 2 ^ k) + 1) := by
      have hstep : 2 * (n * 2 ^ (k + 1)) + d ≤ 4 * (c * d * 2 ^ k) + d := by
        have hprod : n * 2 ^ (k + 1) ≤ c * d * 2 ^ (k + 1) :=
          Nat.mul_le_mul_right _ hn
        rw [pow_succ] at hprod ⊢
        nlinarith [hprod]
      calc d * (2 * M) = 2 * d * M := by ring
      _ ≤ 2 * (n * 2 ^ (k + 1)) + d := hb
      _ ≤ 4 * (c * d * 2 ^ k) + d := hstep
      _ = d * (4 * (c * 2 ^ k) + 1) := by ring
    exact Nat.le_of_mul_le_mul_left hmul hd
  have hMle : M ≤ 2 * (c * 2 ^ k) := by
    generalize c * 2 ^ k = Y at hple ⊢
    omega
  split
  next hov =>
    have hkpos : Int.negSucc k + 1 = Int.negSucc (k - 1) := by
      rw [Int.negSucc_eq, Int.negSucc_eq]
      omega
    rw [hkpos]
    have h23 : 2 ^ 23 ≤ c * 2 ^ k := by
      rw [hov] at hMle
      generalize c * 2 ^ k = Y at hMle ⊢
      omega
    have hdd : toFrac (2 ^ 23, Int.negSucc (k - 1)) = (2 ^ 23, 2 ^ (k - 1 + 1)) :=
      rfl
    rw [hdd]
    have hkk : k - 1 + 1 = k := by omega
    show (2:ℕ) ^ 23 / 2 ^ (k - 1 + 1) ≤ c
    rw [hkk]
    calc (2:ℕ) ^ 23 / 2 ^ k ≤ c * 2 ^ k / 2 ^ k := Nat.div_le_div_right h23
    _ = c := Nat.mul_div_cancel c (by positivity)
  next hov =>
    have hdd : toFrac (M, Int.negSucc k) = (M, 2 ^ (k + 1)) := rfl
    rw [hdd]
    have hMle2 : M ≤ c * 2 ^ (k + 1) := by
      rw [pow_succ]
      calc M ≤ 2 * (c * 2 ^ k) := hMle
      _ = c * (2 ^ k * 2) := by ring
    show M / 2 ^ (k + 1) ≤ c
    calc M / 2 ^ (k + 1) ≤ c * 2 ^ (k + 1) / 2 ^ (k + 1) :=
      Nat.div_le_div_right hMle2
    _ = c := Nat.mul_div_cancel c (by positivity)

theorem fround_div255_le_one {a : ℕ} (ha : a ≤ 255) :
    (toFrac (fround a 255)).1 ≤ (toFrac (fround a 255)).2 ∧
    0 < (toFrac (fround a 255)).2 ∧ (toFrac (fround a 255)).2 < 2 ^ 50 := by
  rcases Nat.eq_zero_or_pos a with rfl | ha0
  · exact ⟨by decide, by decide, by decide⟩
  rcases Nat.lt_or_ge a 255 with ha255 | ha255
  swap
  · have haeq : a = 255 := le_antisymm ha ha255
    subst haeq
    exact ⟨by decide, by decide, by decide⟩
  have hble : bits a ≤ 8 := bitsAux_le (by omega : a < 2 ^ 8)
  have hlt : a < 2 ^ bits a :=
    bitsAux_lt (lt_of_le_of_lt ha (by norm_num : (255:ℕ) < 2 ^ 64))
  have hbpos : 0 < bits a := by
    by_contra hc
    push_neg at hc
    have hz : bits a = 0 := by omega
    rw [hz] at hlt
    simp at hlt
    omega
  have hb255 : bits 255 = 8 := by decide
  have he_le : froundExp a 255 ≤ 0 := by
    simp only [froundExp, hb255]
    split <;> omega
  have he_ge : -8 ≤ froundExp a 255 := by
    simp only [froundExp, hb255]
    split <;> omega
  have hs_le : froundExp a 255 - 23 ≤ -23 := by omega
  have hs_ge : -31 ≤ froundExp a 255 - 23 := by omega
  obtain ⟨k, hk⟩ : ∃ k, froundExp a 255 - 23 = Int.negSucc k := by
    rcases hsv : froundExp a 255 - 23 with p | q
    · exfalso
      rw [hsv] at hs_le
      have hp : (0:ℤ) ≤ Int.ofNat p := Int.ofNat_nonneg p
      omega
    · exact ⟨q, rfl⟩
  have hk22 : 22 ≤ k ∧ k ≤ 30 := by
    rw [hk, Int.negSucc_eq] at hs_le hs_ge
    constructor <;> omega
  rw [fround_eq_of_ne (by omega), hk]
  have hm : froundMant a 255 (Int.negSucc k) = rne (a * 2 ^ (k + 1)) 255 := rfl
  rw [hm]
  have hb := rne_le (a * 2 ^ (k + 1)) 255
  set M := rne (a * 2 ^ (k + 1)) 255 with hM
  have hble2 : 510 * M ≤ 1016 * 2 ^ k + 255 := by
    have h1 : 2 * (a * 2 ^ (k + 1)) ≤ 1016 * 2 ^ k := by
      have hprod : a * 2 ^ (k + 1) ≤ 254 * 2 ^ (k + 1) :=
        Nat.mul_le_mul_right _ (by omega)
      rw [pow_succ] at hprod ⊢
      nlinarith [hprod]
    calc 510 * M = 2 * 255 * M := by ring
    _ ≤ 2 * (a * 2 ^ (k + 1)) + 255 := hb
    _ ≤ 1016 * 2 ^ k + 255 := Nat.add_le_add_right h1 255
  split
  next hov =>
    have hkpos : Int.negSucc k + 1 = Int.negSucc (k - 1) := by
      rw [Int.negSucc_eq, Int.negSucc_eq]
      omega
    rw [hkpos]
    have hX : 2 ^ 23 ≤ 2 ^ k := by
      rw [hov] at hble2
      norm_num at hble2
      by_contra hcc
      push_neg at hcc
      norm_num at hcc
      omega
    have hdd : toFrac (2 ^ 23, Int.negSucc (k - 1)) = (2 ^ 23, 2 ^ (k - 1 + 1)) :=
      rfl
    rw [hdd]
    have hkk : k - 1 + 1 = k := by omega
    refine ⟨?_, by positivity, ?_⟩
    · show (2:ℕ) ^ 23 ≤ 2 ^ (k - 1 + 1)
      rw [hkk]
      exact hX
    · show (2:ℕ) ^ (k - 1 + 1) < 2 ^ 50
      rw [hkk]
      exact lt_of_le_of_lt
        (Nat.pow_le_pow_right (by norm_num) (by omega : k ≤ 30)) (by norm_num)
  next hov =>
    have hdd : toFrac (M, Int.negSucc k) = (M, 2 ^ (k + 1)) := rfl
    rw [hdd]
    have hMle : M ≤ 2 ^ (k + 1) := by
      rw [pow_succ]
      generalize (2:ℕ) ^ k = X at hble2 ⊢
      omega
    refine ⟨hMle, by positivity, ?_⟩
    show (2:ℕ) ^ (k + 1) < 2 ^ 50
    exact lt_of_le_of_lt
      (Nat.pow_le_pow_right (by norm_num) (by omega : k + 1 ≤ 31)) (by norm_num)

theorem aoMultiply_le {c a : ℕ} (hc : c ≤ 255) (ha : a ≤ 255) :
    aoMultiply c a ≤ c := by
  obtain ⟨h1, h2, h3⟩ := fround_div255_le_one ha
  simp only [aoMultiply]
  refine le_trans (min_le_left _ _) ?_
  exact fround_trunc_le h2 h3 hc (Nat.mul_le_mul_left c h1)

set_option maxRecDepth 100000 in
theorem aoMultiply_255 {c : ℕ} (hc : c ≤ 255) : aoMultiply c 255 = c := by
  have hfin : ∀ x : Fin 256, aoMultiply x.val 255 = x.val := by decide
  exact hfin ⟨c, by omega⟩

/-- The luminance of an 8-bit pixel fits in 8 bits. -/
theorem luma_le {p : Rgba} (hr : p.r < 256) (hg : p.g < 256)
    (hb : p.b < 256) : luma p ≤ 255 := by
  unfold luma
  omega

/-- C10: an ambient-occlusion luminance of 255 is the identity on every
colour channel of the AO pass, and the AO multiply never increases a
channel value, both at image level and for the raw channel arithmetic. -/
theorem ao_identity_monotone (albedo ao : Img) (x y : ℕ)
    (hwf : albedo.Wf) (hwfao : ao.Wf)
    (hx : x < albedo.width) (hy : y < albedo.height)
    (hxa : x < ao.width) (hya : y < ao.height) :
    (∀ q, aoStep (some ao) x y (albedo.pix x y) = some q →
      (luma (ao.pix x y) = 255 →
        q.r = (albedo.pix x y).r ∧ q.g = (albedo.pix x y).g ∧
        q.b = (albedo.pix x y).b) ∧
      (q.r ≤ (albedo.pix x y).r ∧ q.g ≤ (albedo.pix x y).g ∧
        q.b ≤ (albedo.pix x y).b)) ∧
    (∀ c, c ≤ 255 → aoMultiply c 255 = c) ∧
    (∀ c a, c ≤ 255 → a ≤ 255 → aoMultiply c a ≤ c) := by
  obtain ⟨hr, hg, hb, -⟩ := hwf x y hx hy
  obtain ⟨har, hag, hab, -⟩ := hwfao x y hxa hya
  have hluma : luma (ao.pix x y) ≤ 255 := luma_le har hag hab
  refine ⟨?_, fun c hc => aoMultiply_255 hc,
    fun c a hc ha => aoMultiply_le hc ha⟩
  intro q hq
  obtain ⟨-, -, hqe⟩ := aoStep_some hq
  subst hqe
  constructor
  · intro h255
    rw [h255]
    exact ⟨aoMultiply_255 (by omega), aoMultiply_255 (by omega),
      aoMultiply_255 (by omega)⟩
  · exact ⟨aoMultiply_le (by omega) hluma, aoMultiply_le (by omega) hluma,
      aoMultiply_le (by omega) hluma⟩

/-- C4: with an AO input of the albedo dimensions, every colour channel of
the packed-albedo output is the f32 product of the source channel with the
AO luminance over 255 truncated to an integer, the alpha channel is not
modified by the AO pass, and at the documented concrete inputs the result
is the floor of the exact product. -/
theorem albedo_ao_spec (albedo ao : Img) (hgt : Option Img) (out : Img)
    (_hw : ao.width = albedo.width) (_hh : ao.height = albedo.height)
    (h : compositeAlbedo albedo (some ao) hgt = some out) :
    (∀ x y, x < albedo.width → y < albedo.height →
      (out.pix x y).r = aoMultiply (albedo.pix x y).r (luma (ao.pix x y)) ∧
      (out.pix x y).g = aoMultiply (albedo.pix x y).g (luma (ao.pix x y)) ∧
      (out.pix x y).b = aoMultiply (albedo.pix x y).b (luma (ao.pix x y)) ∧
      ∀ q, aoStep (some ao) x y (albedo.pix x y) = some q →
        q.a = (albedo.pix x y).a) ∧
    (aoMultiply 200 128 = 200 * 128 / 255 ∧
      aoMultiply 100 128 = 100 * 128 / 255 ∧
      aoMultiply 50 128 = 50 * 128 / 255) := by
  constructor
  · intro x y hx hy
    obtain ⟨-, -, hpix⟩ := compositeAlbedo_pix h
    obtain ⟨p1, hao, hht⟩ := albedoPixelAt_some hx (hpix x y hx hy)
    obtain ⟨-, -, hp1⟩ := aoStep_some hao
    obtain ⟨hnone, hsome⟩ := heightStep_some hht
    have hrgb : (out.pix x y).r = p1.r ∧ (out.pix x y).g = p1.g ∧
        (out.pix x y).b = p1.b := by
      cases hgt with
      | none =>
        have hq := hnone rfl
        simp [hq]
      | some hImg =>
        obtain ⟨-, -, hq⟩ := hsome hImg rfl
        simp [hq]
    refine ⟨?_, ?_, ?_, ?_⟩
    · rw [hrgb.1, hp1]
    · rw [hrgb.2.1, hp1]
    · rw [hrgb.2.2, hp1]
    · intro q hq2
      obtain ⟨-, -, hqe⟩ := aoStep_some hq2
      rw [hqe]
  · exact ⟨by decide, by decide, by decide⟩

theorem wAlbedoOutH_run :
    compositeAlbedo wAlbedo none (some wHeight) = some wAlbedoOutH := rfl

theorem wAlbedoOutN_run :
    compositeAlbedo wAlbedo none none = some wAlbedoOutN := rfl

theorem wAlbedoOutAO_run :
    compositeAlbedo wAlbedo (some wAo) none = some wAlbedoOutAO := rfl

/-- Witness for C2: height luminance 77 lands in the alpha channel, and with
no height input the alpha is 255, although the source alpha was 13. -/
theorem albedo_alpha_spec_witness :
    (wAlbedoOutH.pix 0 0).a = 77 ∧ (wAlbedoOutN.pix 0 0).a = 255 :=
  ⟨albedo_alpha_spec wAlbedo none (some wHeight) wAlbedoOutH wAlbedoOutH_run
      0 0 (by decide) (by decide),
    albedo_alpha_spec wAlbedo none none wAlbedoOutN wAlbedoOutN_run
      0 0 (by decide) (by decide)⟩

/-- Witness for C4: albedo (200, 100, 50) under uniform AO luminance 128
becomes (100, 50, 25) with the alpha pass-through intact. -/
theorem albedo_ao_spec_witness :
    ((wAlbedoOutAO.pix 0 0).r = 100 ∧ (wAlbedoOutAO.pix 0 0).g = 50 ∧
      (wAlbedoOutAO.pix 0 0).b = 25) ∧
    aoMultiply 200 128 = 200 * 128 / 255 :=
  have happ := albedo_ao_spec wAlbedo wAo none wAlbedoOutAO rfl rfl
    wAlbedoOutAO_run
  have hpix := happ.1 0 0 (by decide) (by decide)
  ⟨⟨hpix.1, hpix.2.1, hpix.2.2.1⟩, happ.2.1⟩

/-- Witness for C10 at luminance 255 and at channel 200 with luminance 128. -/
theorem ao_identity_monotone_witness :
    aoMultiply 200 255 = 200 ∧ aoMultiply 200 128 ≤ 200 :=
  have happ := ao_identity_monotone wAlbedo wAoFull 0 0
    (fun x y _ _ => by refine ⟨?_, ?_, ?_, ?_⟩ <;> norm_num [wAlbedo])
    (fun x y _ _ => by refine ⟨?_, ?_, ?_, ?_⟩ <;> norm_num [wAoFull])
    (by decide) (by decide) (by decide) (by decide)
  ⟨happ.2.1 200 (by norm_num), happ.2.2 200 128 (by norm_num) (by norm_num)⟩

theorem aoStep_isSome {ao : Option Img} {x y : ℕ} {p : Rgba}
    (hb : ∀ img, ao = some img → x < img.width ∧ y < img.height) :
    (aoStep ao x y p).isSome = true := by
  cases ao with
  | none => rfl
  | some img =>
    obtain ⟨hx, hy⟩ := hb img rfl
    simp [aoStep, getPixel, hx, hy]

theorem heightStep_isSome {hgt : Option Img} {x y : ℕ} {p : Rgba}
    (hb : ∀ img, hgt = some img → x < img.width ∧ y < img.height) :
    (heightStep hgt x y p).isSome = true := by
  cases hgt with
  | none => rfl
  | some img =>
    obtain ⟨hx, hy⟩ := hb img rfl
    simp [heightStep, getPixel, hx, hy]

theorem roughnessStep_isSome {rough : Option Img} {rf : RoughnessFormat}
    {x y : ℕ} {p : Rgba}
    (hb : ∀ img, rough = some img → x < img.width ∧ y < img.height) :
    (roughnessStep rough rf x y p).isSome = true := by
  cases rough with
  | none => rfl
  | some img =>
    obtain ⟨hx, hy⟩ := hb img rfl
    simp [roughnessStep, getPixel, hx, hy]

/-- C6: when every present optional input matches the dimensions of its
primary input, every per-pixel read of the compositor stays in bounds, so both
pipelines deliver their buffers without a panic; and the compositor itself
validates nothing, for a 2 × 2 albedo with a 1 × 1 AO map the very same run
reads out of range and panics (`none`). -/
theorem composite_in_bounds :
    (∀ (albedo normal : Img) (ao hgt rough : Option Img)
        (nf : NormalMapFormat) (rf : RoughnessFormat),
      (∀ img, ao = some img →
        img.width = albedo.width ∧ img.height = albedo.height) →
      (∀ img, hgt = some img →
        img.width = albedo.width ∧ img.height = albedo.height) →
      (∀ img, rough = some img →
        img.width = normal.width ∧ img.height = normal.height) →
      (compositeAlbedo albedo ao hgt).isSome = true ∧
      (compositeNormal normal rough nf rf).isSome = true) ∧
    compositeAlbedo ⟨2, 2, fun _ _ => ⟨0, 0, 0, 0⟩⟩
      (some ⟨1, 1, fun _ _ => ⟨0, 0, 0, 0⟩⟩) none = none := by
  constructor
  · intro albedo normal ao hgt rough nf rf hao hhgt hrough
    constructor
    · unfold compositeAlbedo
      rw [dif_pos]
      · rfl
      intro i hi
      have hw : 0 < albedo.width := by
        rcases Nat.eq_zero_or_pos albedo.width with hz | hp
        · rw [hz] at hi
          simp at hi
        · exact hp
      have hx : i % albedo.width < albedo.width := Nat.mod_lt _ hw
      have hy : i / albedo.width < albedo.height := by
        rw [Nat.div_lt_iff_lt_mul hw, Nat.mul_comm albedo.height albedo.width]
        exact hi
      simp only [albedoPixelAt]
      obtain ⟨p1, hp1⟩ := Option.isSome_iff_exists.mp
        (aoStep_isSome (p := albedo.pix (i % albedo.width) (i / albedo.width))
          (fun img he => by
            obtain ⟨hw2, hh2⟩ := hao img he
            rw [hw2, hh2]
            exact ⟨hx, hy⟩))
      rw [hp1]
      exact heightStep_isSome (fun img he => by
        obtain ⟨hw2, hh2⟩ := hhgt img he
        rw [hw2, hh2]
        exact ⟨hx, hy⟩)
    · unfold compositeNormal
      rw [dif_pos]
      · rfl
      intro i hi
      have hw : 0 < normal.width := by
        rcases Nat.eq_zero_or_pos normal.width with hz | hp
        · rw [hz] at hi
          simp at hi
        · exact hp
      have hx : i % normal.width < normal.width := Nat.mod_lt _ hw
      have hy : i / normal.width < normal.height := by
        rw [Nat.div_lt_iff_lt_mul hw, Nat.mul_comm normal.height normal.width]
        exact hi
      simp only [normalPixelAt]
      exact roughnessStep_isSome (fun img he => by
        obtain ⟨hw2, hh2⟩ := hrough img he
        rw [hw2, hh2]
        exact ⟨hx, hy⟩)
  · unfold compositeAlbedo
    rw [dif_neg]
    decide

/-- Witness for C6 at matched 1 × 1 inputs on both pipelines. -/
theorem composite_in_bounds_witness :
    (compositeAlbedo wAlbedo (some wAo) (some wHeight)).isSome = true ∧
    (compositeNormal wNormal (some wRough) .OpenGL .Roughness).isSome = true :=
  composite_in_bounds.1 wAlbedo wNormal (some wAo) (some wHeight) (some wRough)
    .OpenGL .Roughness
    (fun img he => by cases he; exact ⟨rfl, rfl⟩)
    (fun img he => by cases he; exact ⟨rfl, rfl⟩)
    (fun img he => by cases he; exact ⟨rfl, rfl⟩)

/-- C9: every image passing validation processes successfully into the
untouched original next to a 512 × 512 preview, whatever the input size,
and reducing the preview again still yields 512 × 512. -/
theorem process_image_spec (img : Img)
    (hv : validate_image img.width img.height = .ok ()) :
    process_image img = .ok ⟨img, resizeNearest img 512 512⟩ ∧
    (resizeNearest img 512 512).width = 512 ∧
    (resizeNearest img 512 512).height = 512 ∧
    (resizeNearest (resizeNearest img 512 512) 512 512).width = 512 ∧
    (resizeNearest (resizeNearest img 512 512) 512 512).height = 512 := by
  refine ⟨?_, rfl, rfl, rfl, rfl⟩
  unfold process_image
  rw [hv]

/-- Witness for C9 at a concrete 2048 × 2048 input. -/
theorem process_image_spec_witness :
    process_image wBig = .ok ⟨wBig, resizeNearest wBig 512 512⟩ ∧
    (resizeNearest wBig 512 512).width = 512 ∧
    (resizeNearest wBig 512 512).height = 512 ∧
    (resizeNearest (resizeNearest wBig 512 512) 512 512).width = 512 ∧
    (resizeNearest (resizeNearest wBig 512 512) 512 512).height = 512 :=
  process_image_spec wBig rfl
